import Mathlib

/-!
Verification development for the ACES cohort-extraction system.

The repository ships the core modules (`aces.aggregate`, `aces.extract_subtree`,
`aces.query`, `aces.config`, `aces.constraints`) as type stubs plus extensive
design documentation; the executable bodies are not part of the source tree
here.  Following the design documents, the definitions below give a shallow
embedding of the predicates table, the aggregation kernel, the recursive
extractor and the configuration validation, each marked as modelled from the
spec where the Python body is missing.

Timestamps are microsecond counts (`Int`), subjects are `Nat` identifiers and
predicates are column indices into each row's count vector.
-/

abbrev Subj := Nat
abbrev PredIdx := Nat

/-- One row of the predicates table: a subject, a timestamp, and one
non-negative count per predicate column. -/
structure Row where
  subj : Subj
  ts : Int
  counts : List Nat
deriving Repr, DecidableEq

abbrev PredDF := List Row

/-- Count of predicate `p` at row `r` (missing columns read as 0). -/
def cnt (r : Row) (p : PredIdx) : Nat := r.counts.getD p 0

/-- The rows of the predicates table belonging to subject `s`. -/
def subjRows (df : PredDF) (s : Subj) : PredDF :=
  df.filter (fun r => r.subj == s)

/-- Membership of a timestamp in a window `[lo, hi]` whose endpoints are
inclusive or exclusive according to `li`/`ri`. -/
def inWindow (li : Bool) (lo : Int) (ri : Bool) (hi : Int) (t : Int) : Bool :=
  (if li then decide (lo ≤ t) else decide (lo < t)) &&
  (if ri then decide (t ≤ hi) else decide (t < hi))

/-- Modelled from the spec: the direct predicate-count sum of
`aggregate_temporal_window` / `aggregate_event_bound_window` (bodies absent,
only `aggregate.pyi` is in the tree) — the sum of predicate `p` over rows of
subject `s` whose timestamp lies in the window `[lo, hi]` with the given
endpoint inclusivities. -/
def windowSum (df : PredDF) (s : Subj) (li : Bool) (lo : Int) (ri : Bool) (hi : Int)
    (p : PredIdx) : Nat :=
  ((df.filter (fun r => r.subj == s && inWindow li lo ri hi r.ts)).map
    (fun r => cnt r p)).sum

/-- Sum of predicate `p` over the (at most one, when `(subj, ts)` is unique)
rows of subject `s` sitting exactly at timestamp `t`. -/
def ptSum (df : PredDF) (s : Subj) (t : Int) (p : PredIdx) : Nat :=
  ((df.filter (fun r => r.subj == s && r.ts == t)).map (fun r => cnt r p)).sum

/-- One `has` constraint: predicate `pred` must occur between `lo` and `hi`
times (inclusive); an absent bound is unconstrained. -/
structure HasBound where
  pred : PredIdx
  lo : Option Nat
  hi : Option Nat
deriving Repr, DecidableEq

/-- A single constraint holds of a window's count vector. -/
def satisfiesBound (counts : List Nat) (hb : HasBound) : Bool :=
  (match hb.lo with
   | none => true
   | some l => decide (l ≤ counts.getD hb.pred 0)) &&
  (match hb.hi with
   | none => true
   | some h => decide (counts.getD hb.pred 0 ≤ h))

/-- Modelled from the spec: `aces.constraints.check_constraints` (body absent)
— a window count vector is valid iff every declared `has` bound holds. -/
def check_constraints (has : List HasBound) (counts : List Nat) : Bool :=
  has.all (satisfiesBound counts)

/-- An edge of the window tree: either a temporal (fixed signed duration)
relationship, or an event-bound relationship to the next / previous row whose
boundary predicate is positive. -/
inductive EdgeExpr where
  | temporal (li : Bool) (delta : Int) (ri : Bool)
  | evNext (li : Bool) (bpred : PredIdx) (ri : Bool)
  | evPrev (li : Bool) (bpred : PredIdx) (ri : Bool)
deriving Repr, DecidableEq

/-- Eligibility of a row as the child anchor of a forward event-bound edge
rooted at time `root`: it must belong to the subject, have a positive boundary
predicate and lie at/after the root according to the root-side inclusivity. -/
def eligNext (s : Subj) (b : PredIdx) (li : Bool) (root : Int) (r : Row) : Bool :=
  r.subj == s && decide (0 < cnt r b) &&
    (if li then decide (root ≤ r.ts) else decide (root < r.ts))

/-- Eligibility of a row as the child anchor of a backward event-bound edge. -/
def eligPrev (s : Subj) (b : PredIdx) (ri : Bool) (root : Int) (r : Row) : Bool :=
  r.subj == s && decide (0 < cnt r b) &&
    (if ri then decide (r.ts ≤ root) else decide (r.ts < root))

/-- Modelled from the spec: the first subsequent eligible boundary row (rows
are stored in ascending per-subject timestamp order, an input invariant). -/
def firstAfter (df : PredDF) (s : Subj) (b : PredIdx) (li : Bool) (root : Int) :
    Option Row :=
  (df.filter (eligNext s b li root)).head?

/-- Modelled from the spec: the last preceding eligible boundary row. -/
def lastBefore (df : PredDF) (s : Subj) (b : PredIdx) (ri : Bool) (root : Int) :
    Option Row :=
  (df.filter (eligPrev s b ri root)).getLast?

/-- The per-realization struct attached to each window of an output row:
window name, realized start and end timestamps, and the per-predicate counts
inside the window. -/
structure WindowStruct where
  name : String
  start_ts : Int
  end_ts : Int
  counts : List Nat
deriving Repr, DecidableEq

/-- The count vector of a window, one entry per configured predicate. -/
def wcounts (df : PredDF) (s : Subj) (li : Bool) (lo : Int) (ri : Bool) (hi : Int)
    (np : Nat) : List Nat :=
  (List.range np).map (fun p => windowSum df s li lo ri hi p)

/-- Modelled from the spec: one step of the aggregation kernel
(`aggregate_temporal_window` / `aggregate_event_bound_window`, bodies absent).
Given the subtree anchor timestamp and the accumulated anchor-to-root offset,
it realizes the window spanned by the edge, returning the window struct, the
child-subtree anchor timestamp and the child's anchor-to-root offset, or
`none` when no eligible boundary event exists. -/
def aggregateEdge (df : PredDF) (np : Nat) (e : EdgeExpr) (nm : String)
    (s : Subj) (aTs : Int) (off : Int) : Option (WindowStruct × Int × Int) :=
  let root := aTs + off
  match e with
  | .temporal li delta ri =>
      let lo := min root (root + delta)
      let hi := max root (root + delta)
      some (⟨nm, lo, hi, wcounts df s li lo ri hi np⟩, aTs, off + delta)
  | .evNext li b ri =>
      match firstAfter df s b li root with
      | none => none
      | some child =>
          some (⟨nm, root, child.ts, wcounts df s li root ri child.ts np⟩,
                child.ts, 0)
  | .evPrev li b ri =>
      match lastBefore df s b ri root with
      | none => none
      | some child =>
          some (⟨nm, child.ts, root, wcounts df s li child.ts ri root np⟩,
                child.ts, 0)

/-- A forest of window-tree nodes below a common parent.  A `node` carries the
window name, the edge from the parent, the window's `has` constraints, its own
children (`children`) and its right siblings (`rest`).  This encoding of a
list of rose trees keeps all recursion structural. -/
inductive WForest where
  | nil : WForest
  | node (name : String) (edge : EdgeExpr) (has : List HasBound)
      (children : WForest) (rest : WForest) : WForest
deriving Repr, DecidableEq

/-- The top-level branches of a forest: each sibling subtree's name, edge,
constraints and children. -/
def WForest.branches : WForest → List (String × EdgeExpr × List HasBound × WForest)
  | .nil => []
  | .node nm e has cs rest => (nm, e, has, cs) :: rest.branches

/-- Modelled from the spec: `aces.extract_subtree.extract_subtree` (body
absent, only `extract_subtree.pyi` is in the tree).  Processes a forest of
sibling subtrees below a common anchor: each sibling edge is aggregated,
filtered on its window's `has` constraints and recursed into; the siblings'
results are combined with inner-join semantics, so the anchor survives only if
every branch succeeds.  Returns the realized window structs of the whole
forest, or `none` when some branch has no valid realization. -/
def extractForest (df : PredDF) (np : Nat) :
    WForest → Subj → Int → Int → Option (List WindowStruct)
  | .nil, _, _, _ => some []
  | .node nm e has cs rest, s, aTs, off =>
      match aggregateEdge df np e nm s aTs off with
      | none => none
      | some (ws, childA, childOff) =>
          if check_constraints has ws.counts then
            match extractForest df np cs s childA childOff,
                  extractForest df np rest s aTs off with
            | some sub, some sibs => some (ws :: (sub ++ sibs))
            | _, _ => none
          else none

/-- The task configuration after compilation: the trigger predicate, the
number of predicate columns, and the window tree below the trigger. -/
structure TaskCfg where
  trig : PredIdx
  np : Nat
  children : WForest

/-- One output row: the subject, the trigger anchor timestamp, and the window
structs of every realized window, in pre-order. -/
structure Realization where
  subj : Subj
  anchor_ts : Int
  windows : List WindowStruct
deriving Repr, DecidableEq

/-- Modelled from the spec: `aces.query.query` (body absent, only `query.pyi`
is in the tree).  Rows where the trigger predicate is positive become
prospective root anchors; each anchor that admits a realization of the whole
window tree yields one output row. -/
def query (df : PredDF) (task : TaskCfg) : List Realization :=
  (df.filter (fun r => decide (0 < cnt r task.trig))).filterMap
    (fun r =>
      (extractForest df task.np task.children r.subj r.ts 0).map
        (fun ws => ⟨r.subj, r.ts, ws⟩))

/-- Modelled from the spec: the labeling clean-up step of `aces.query.query` —
the `label` column of each output row copies the count of the named predicate
from the named window's struct (the count itself, not a 0/1 threshold). -/
def queryWithLabel (df : PredDF) (task : TaskCfg) (labelWin : String)
    (labelPred : PredIdx) : List (Realization × Nat) :=
  (query df task).map
    (fun r =>
      (r, (match r.windows.find? (fun ws => ws.name == labelWin) with
           | none => 0
           | some ws => ws.counts.getD labelPred 0)))

/-- Names of all windows in a forest (pre-order). -/
def WForest.names : WForest → List String
  | .nil => []
  | .node nm _ _ cs rest => nm :: (WForest.names cs ++ WForest.names rest)

/-- Look up the `has` constraints declared for the window named `q`. -/
def WForest.findHas : WForest → String → Option (List HasBound)
  | .nil, _ => none
  | .node nm _ has cs rest, q =>
      if nm = q then some has
      else
        match WForest.findHas cs q with
        | some h => some h
        | none => WForest.findHas rest q

/-- Sum of predicate `p` over the rows selected by `pr`. -/
def condSum (pr : Row → Bool) (rows : PredDF) (p : PredIdx) : Nat :=
  ((rows.filter pr).map (fun r => cnt r p)).sum

/-- Sum of predicate `p` over rows with timestamp in the half-open interval
`(lo, hi]`. -/
def ocSum (rows : PredDF) (lo hi : Int) (p : PredIdx) : Nat :=
  condSum (fun r => decide (lo < r.ts) && decide (r.ts ≤ hi)) rows p

/-- Sum of predicate `p` over rows sitting exactly at timestamp `t`. -/
def atSum (rows : PredDF) (t : Int) (p : PredIdx) : Nat :=
  condSum (fun r => r.ts == t) rows p

/-- Sum of predicate `p` over rows with timestamp in the window `[lo, hi]`
under the given endpoint inclusivities. -/
def tsWindowSum (rows : PredDF) (li : Bool) (lo : Int) (ri : Bool) (hi : Int)
    (p : PredIdx) : Nat :=
  condSum (fun r => inWindow li lo ri hi r.ts) rows p

/-- Cumulative count of predicate `p` over the first `k` rows: the per-subject
cumulative-sum column of the event-bound aggregation. -/
def prefCnt (rows : PredDF) (k : Nat) (p : PredIdx) : Nat :=
  ((rows.take k).map (fun r => cnt r p)).sum

/-- Timestamp of the row at index `i` (0 when out of range). -/
def rowTs (rows : PredDF) (i : Nat) : Int := (rows.getD i ⟨0, 0, []⟩).ts

/-- Index of the first row satisfying `pr`. -/
def findIdxFirst (pr : Row → Bool) : List Row → Option Nat
  | [] => none
  | r :: rest =>
      if pr r then some 0 else (findIdxFirst pr rest).map (· + 1)

/-- Index of the last row satisfying `pr`. -/
def findIdxLast (pr : Row → Bool) : List Row → Option Nat
  | [] => none
  | r :: rest =>
      match findIdxLast pr rest with
      | some k => some (k + 1)
      | none => if pr r then some 0 else none

/-- Eligibility of a row as the forward boundary event for a root at `root`:
positive boundary predicate, at/after the root per the root-side
inclusivity. -/
def eligRowNext (b : PredIdx) (li : Bool) (root : Int) (r : Row) : Bool :=
  decide (0 < cnt r b) &&
    (if li then decide (root ≤ r.ts) else decide (root < r.ts))

/-- Eligibility of a row as the backward boundary event for a root at
`root`. -/
def eligRowPrev (b : PredIdx) (ri : Bool) (root : Int) (r : Row) : Bool :=
  decide (0 < cnt r b) &&
    (if ri then decide (r.ts ≤ root) else decide (r.ts < root))

/-- Direction of an event-bound edge: forward to the next boundary event, or
backward to the previous one. -/
inductive EvDir where
  | next : EvDir
  | prev : EvDir
deriving Repr, DecidableEq

/-- Modelled from the spec: `aces.aggregate.boolean_expr_bound_sum` (body
absent, only `aggregate.pyi` is in the tree) — the cumulative-sum-differencing
implementation of the event-bound aggregation over one subject's rows (in
ascending timestamp order).  For an anchor row at index `a` with offset `off`,
it locates the first subsequent (resp. last preceding) eligible boundary row,
takes the difference of the per-subject cumulative predicate counts between
the child and the anchor, subtracts the counts accumulated inside the offset
stub, and corrects the two endpoints according to the window
inclusivities. -/
def evBoundSum (dir : EvDir) (rows : PredDF) (a : Nat) (li ri : Bool)
    (off : Int) (b p : PredIdx) : Option Int :=
  let aTs := rowTs rows a
  let root := aTs + off
  match dir with
  | .next =>
      match findIdxFirst (eligRowNext b li root) rows with
      | none => none
      | some j =>
          some ((prefCnt rows (j + 1) p : Int) - (prefCnt rows (a + 1) p : Int)
                - (ocSum rows aTs root p : Int)
                + (if li then (atSum rows root p : Int) else 0)
                - (if ri then 0 else (atSum rows (rowTs rows j) p : Int)))
  | .prev =>
      match findIdxLast (eligRowPrev b ri root) rows with
      | none => none
      | some j =>
          some ((prefCnt rows (a + 1) p : Int) - (prefCnt rows (j + 1) p : Int)
                - (ocSum rows root aTs p : Int)
                + (if li then (atSum rows (rowTs rows j) p : Int) else 0)
                - (if ri then 0 else (atSum rows root p : Int)))

/-- The specification-level event-bound aggregation: the direct sum of
predicate `p` over the interval from the root (`anchor + off`) to the first
subsequent (resp. last preceding) row whose boundary predicate is positive,
under the declared endpoint inclusivities. -/
def evBoundSpec (dir : EvDir) (rows : PredDF) (a : Nat) (li ri : Bool)
    (off : Int) (b p : PredIdx) : Option Nat :=
  let root := rowTs rows a + off
  match dir with
  | .next =>
      (findIdxFirst (eligRowNext b li root) rows).map
        (fun j => tsWindowSum rows li root ri (rowTs rows j) p)
  | .prev =>
      (findIdxLast (eligRowPrev b ri root) rows).map
        (fun j => tsWindowSum rows li (rowTs rows j) ri root p)

/-- A window boundary reference target: the trigger event, a start field
(`none` for the same window's own start, otherwise the named window's start),
or an end field. -/
inductive RefKind where
  | trigger : RefKind
  | startField (w : Option String) : RefKind
  | endField (w : Option String) : RefKind
deriving Repr, DecidableEq

/-- A parsed window boundary expression: null, a bare reference, a reference
plus a signed duration, or a next / previous event-bound reference. -/
inductive BoundaryExpr where
  | nullB : BoundaryExpr
  | refB (r : RefKind) : BoundaryExpr
  | offsetB (r : RefKind) (delta : Int) : BoundaryExpr
  | nextB (r : RefKind) (p : String) : BoundaryExpr
  | prevB (r : RefKind) (p : String) : BoundaryExpr
deriving Repr, DecidableEq

abbrev ConfigError := String

/-- A window configuration as parsed from the task file, before
validation. -/
structure WindowConfig where
  wstart : BoundaryExpr
  wend : BoundaryExpr
  start_inclusive : Bool
  end_inclusive : Bool
deriving Repr, DecidableEq

/-- Modelled from the spec: the boundary-expression validity rules enforced by
`aces.config.WindowConfig.__post_init__` (body absent, only the declaration is
in the tree).  A reference to a start field must move forward in time (next
ordering, positive delta); a reference to an end field must move backward
(previous ordering, negative delta); offsets must be nonzero. -/
def checkBoundaryExpr (bexpr : BoundaryExpr) : Except ConfigError Unit :=
  match bexpr with
  | .nullB => Except.ok ()
  | .refB _ => Except.ok ()
  | .offsetB r d =>
      if d = 0 then Except.error "offset duration must be nonzero"
      else
        match r with
        | .trigger => Except.ok ()
        | .startField _ =>
            if 0 < d then Except.ok ()
            else Except.error "negative time delta applied to a start field"
        | .endField _ =>
            if d < 0 then Except.ok ()
            else Except.error "positive time delta applied to an end field"
  | .nextB r _ =>
      match r with
      | .endField _ => Except.error "next event reference applied to an end field"
      | _ => Except.ok ()
  | .prevB r _ =>
      match r with
      | .startField _ => Except.error "previous event reference applied to a start field"
      | _ => Except.ok ()

/-- Modelled from the spec: `aces.config.WindowConfig.__post_init__` (body
absent) — rejects a window whose two ends are both null, and validates both
boundary expressions. -/
def WindowConfig.postInit (wc : WindowConfig) : Except ConfigError Unit :=
  if wc.wstart = BoundaryExpr.nullB ∧ wc.wend = BoundaryExpr.nullB then
    Except.error "window cannot have both ends null"
  else
    match checkBoundaryExpr wc.wstart with
    | Except.error e => Except.error e
    | Except.ok _ => checkBoundaryExpr wc.wend

/-- The illegal boundary shapes named by the configuration contract: a next
reference on a start boundary that references its own end, a previous
reference on an end boundary that references its own start, or an offset whose
sign is inconsistent with the referenced field's direction. -/
def illegalStartShape (bexpr : BoundaryExpr) : Prop :=
  (∃ p, bexpr = .nextB (.endField none) p) ∨
  (∃ w d, bexpr = .offsetB (.endField w) d ∧ 0 < d) ∨
  (∃ w d, bexpr = .offsetB (.startField w) d ∧ d < 0)

/-- The illegal shapes for an end boundary expression. -/
def illegalEndShape (bexpr : BoundaryExpr) : Prop :=
  (∃ p, bexpr = .prevB (.startField none) p) ∨
  (∃ w d, bexpr = .offsetB (.endField w) d ∧ 0 < d) ∨
  (∃ w d, bexpr = .offsetB (.startField w) d ∧ d < 0)
section Helpers

lemma mem_of_head?_eq (l : List Row) (r : Row) (h : l.head? = some r) : r ∈ l := by
  cases l with
  | nil => simp at h
  | cons x xs => simp at h; simp [h]

lemma firstAfter_elig {df : PredDF} {s : Subj} {b : PredIdx} {li : Bool} {root : Int}
    {child : Row} (h : firstAfter df s b li root = some child) :
    eligNext s b li root child = true := by
  unfold firstAfter at h
  exact List.of_mem_filter (mem_of_head?_eq _ _ h)

lemma lastBefore_elig {df : PredDF} {s : Subj} {b : PredIdx} {ri : Bool} {root : Int}
    {child : Row} (h : lastBefore df s b ri root = some child) :
    eligPrev s b ri root child = true := by
  unfold lastBefore at h
  exact List.of_mem_filter (List.mem_of_mem_getLast? h)

lemma eligNext_ts {s : Subj} {b : PredIdx} {li : Bool} {root : Int} {r : Row}
    (h : eligNext s b li root r = true) : root ≤ r.ts := by
  unfold eligNext at h
  obtain ⟨-, h2⟩ := Bool.and_eq_true_iff.mp h
  cases li with
  | false => exact le_of_lt (of_decide_eq_true h2)
  | true => exact of_decide_eq_true h2

lemma eligPrev_ts {s : Subj} {b : PredIdx} {ri : Bool} {root : Int} {r : Row}
    (h : eligPrev s b ri root r = true) : r.ts ≤ root := by
  unfold eligPrev at h
  obtain ⟨-, h2⟩ := Bool.and_eq_true_iff.mp h
  cases ri with
  | false => exact le_of_lt (of_decide_eq_true h2)
  | true => exact of_decide_eq_true h2

lemma aggregateEdge_start_le_end {df : PredDF} {np : Nat} {e : EdgeExpr} {nm : String}
    {s : Subj} {aTs off : Int} {ws : WindowStruct} {ca co : Int}
    (h : aggregateEdge df np e nm s aTs off = some (ws, ca, co)) :
    ws.start_ts ≤ ws.end_ts := by
  cases e with
  | temporal li delta ri =>
      simp only [aggregateEdge] at h
      obtain ⟨h1, -, -⟩ := Prod.mk.injEq .. ▸ (Option.some.injEq .. ▸ h)
      subst h1
      exact min_le_max
  | evNext li b ri =>
      simp only [aggregateEdge] at h
      split at h
      · simp at h
      next child hfa =>
        simp only [Option.some.injEq, Prod.mk.injEq] at h
        obtain ⟨h1, -, -⟩ := h
        subst h1
        exact eligNext_ts (firstAfter_elig hfa)
  | evPrev li b ri =>
      simp only [aggregateEdge] at h
      split at h
      · simp at h
      next child hfa =>
        simp only [Option.some.injEq, Prod.mk.injEq] at h
        obtain ⟨h1, -, -⟩ := h
        subst h1
        exact eligPrev_ts (lastBefore_elig hfa)

lemma extractForest_start_le_end {df : PredDF} {np : Nat} (f : WForest) :
    ∀ {s : Subj} {aTs off : Int} {ws : List WindowStruct},
      extractForest df np f s aTs off = some ws →
      ∀ w ∈ ws, w.start_ts ≤ w.end_ts := by
  induction f with
  | nil =>
      intro s aTs off ws h w hw
      simp only [extractForest, Option.some.injEq] at h
      subst h; simp at hw
  | node nm e has cs rest ihc ihr =>
      intro s aTs off ws h w hw
      simp only [extractForest] at h
      split at h
      · simp at h
      next w0 ca co hagg =>
        split at h
        · split at h
          · next sub sibs hsub hsibs =>
              simp only [Option.some.injEq] at h
              subst h
              rcases List.mem_cons.mp hw with h0 | hmem
              · subst h0; exact aggregateEdge_start_le_end hagg
              · rcases List.mem_append.mp hmem with hs | hb
                · exact ihc hsub w hs
                · exact ihr hsibs w hb
          · simp at h
        · simp at h

end Helpers

lemma eligNext_ts_strict {s : Subj} {b : PredIdx} {root : Int} {r : Row}
    (h : eligNext s b false root r = true) : root < r.ts := by
  unfold eligNext at h
  obtain ⟨-, h2⟩ := Bool.and_eq_true_iff.mp h
  exact of_decide_eq_true h2

lemma query_mem_extract {df : PredDF} {task : TaskCfg} {r : Realization}
    (hr : r ∈ query df task) :
    ∃ row ∈ df, decide (0 < cnt row task.trig) = true ∧
      extractForest df task.np task.children row.subj row.ts 0 = some r.windows ∧
      r.subj = row.subj ∧ r.anchor_ts = row.ts := by
  unfold query at hr
  obtain ⟨row, hrow, heq⟩ := List.mem_filterMap.mp hr
  obtain ⟨hmem, hfilt⟩ := List.mem_filter.mp hrow
  cases hext : extractForest df task.np task.children row.subj row.ts 0 with
  | none => rw [hext] at heq; simp at heq
  | some ws =>
      rw [hext] at heq
      simp only [Option.map_some', Option.some.injEq] at heq
      subst heq
      exact ⟨row, hmem, hfilt, hext, rfl, rfl⟩

/-- C1: for every valid output row produced by the extractor and every window
of the configuration realized in it, the realized start timestamp of the
window is less than or equal to its realized end timestamp. -/
theorem query_window_start_le_end (df : PredDF) (task : TaskCfg) (r : Realization)
    (hr : r ∈ query df task) : ∀ w ∈ r.windows, w.start_ts ≤ w.end_ts := by
  obtain ⟨row, -, -, hext, -, -⟩ := query_mem_extract hr
  exact extractForest_start_le_end task.children hext

theorem query_window_start_le_end_witness :
    (⟨1, 0, [⟨"target", 0, 20, [1, 1, 3]⟩]⟩ : Realization) ∈
      query [⟨1, 0, [1, 0, 1]⟩, ⟨1, 10, [0, 0, 1]⟩, ⟨1, 20, [0, 1, 1]⟩]
        ⟨0, 3, .node "target" (.evNext true 1 true) [] .nil .nil⟩ ∧
    ∀ w ∈ (⟨1, 0, [⟨"target", 0, 20, [1, 1, 3]⟩]⟩ : Realization).windows,
      w.start_ts ≤ w.end_ts :=
  ⟨by decide,
   query_window_start_le_end
     [⟨1, 0, [1, 0, 1]⟩, ⟨1, 10, [0, 0, 1]⟩, ⟨1, 20, [0, 1, 1]⟩]
     ⟨0, 3, .node "target" (.evNext true 1 true) [] .nil .nil⟩
     ⟨1, 0, [⟨"target", 0, 20, [1, 1, 3]⟩]⟩ (by decide)⟩

/-- C5: on an event-bound edge whose left (root-side) inclusivity is false,
the anchor is never selected as its own child anchor, and the realized window
never collapses to zero length: the end timestamp is strictly after the
start. -/
theorem evNext_exclusive_no_zero_length (df : PredDF) (np : Nat) (nm : String)
    (s : Subj) (aTs : Int) (b : PredIdx) (ri : Bool) (ws : WindowStruct) (ca co : Int)
    (h : aggregateEdge df np (.evNext false b ri) nm s aTs 0 = some (ws, ca, co)) :
    aTs < ca ∧ ws.start_ts < ws.end_ts := by
  simp only [aggregateEdge] at h
  split at h
  · simp at h
  next child hfa =>
    simp only [Option.some.injEq, Prod.mk.injEq] at h
    obtain ⟨h1, h2, -⟩ := h
    have hts := eligNext_ts_strict (firstAfter_elig hfa)
    subst h1 h2
    refine ⟨by simpa using hts, by simpa using hts⟩

theorem evNext_exclusive_no_zero_length_witness :
    aggregateEdge [⟨1, 0, [1]⟩, ⟨1, 10, [1]⟩] 1 (.evNext false 0 true) "w" 1 0 0 =
      some (⟨"w", 0, 10, [1]⟩, 10, 0) ∧
    (0 : Int) < 10 ∧ (⟨"w", 0, 10, [1]⟩ : WindowStruct).start_ts <
      (⟨"w", 0, 10, [1]⟩ : WindowStruct).end_ts :=
  ⟨by decide,
   evNext_exclusive_no_zero_length [⟨1, 0, [1]⟩, ⟨1, 10, [1]⟩] 1 "w" 1 0 0 true
     ⟨"w", 0, 10, [1]⟩ 10 0 (by decide)⟩

/-- C7: if the predicates table is empty, or the trigger predicate is positive
on no row of it, the query returns the empty result table (and, being a total
function, raises no error). -/
theorem query_empty_of_no_trigger (df : PredDF) (task : TaskCfg)
    (h : ∀ r ∈ df, cnt r task.trig = 0) : query df task = [] := by
  unfold query
  have hf : df.filter (fun r => decide (0 < cnt r task.trig)) = [] :=
    List.filter_eq_nil_iff.mpr (fun r hr => by simp [h r hr])
  rw [hf]
  rfl

theorem query_empty_of_no_trigger_witness :
    (∀ r ∈ [(⟨1, 0, [0, 1]⟩ : Row), ⟨2, 5, [0, 2]⟩], cnt r 0 = 0) ∧
    query [⟨1, 0, [0, 1]⟩, ⟨2, 5, [0, 2]⟩]
      ⟨0, 2, .node "w" (.temporal true 10 true) [] .nil .nil⟩ = [] :=
  ⟨by decide,
   query_empty_of_no_trigger [⟨1, 0, [0, 1]⟩, ⟨2, 5, [0, 2]⟩]
     ⟨0, 2, .node "w" (.temporal true 10 true) [] .nil .nil⟩ (by decide)⟩

lemma checkBoundaryExpr_err_of_illegalStart {bexpr : BoundaryExpr}
    (h : illegalStartShape bexpr) : ∃ e, checkBoundaryExpr bexpr = Except.error e := by
  rcases h with ⟨p, rfl⟩ | ⟨w, d, rfl, hd⟩ | ⟨w, d, rfl, hd⟩
  · exact ⟨_, rfl⟩
  · refine ⟨"positive time delta applied to an end field", ?_⟩
    simp only [checkBoundaryExpr]
    rw [if_neg (show ¬d = 0 from ne_of_gt hd), if_neg (show ¬d < 0 from lt_asymm hd)]
  · refine ⟨"negative time delta applied to a start field", ?_⟩
    simp only [checkBoundaryExpr]
    rw [if_neg (show ¬d = 0 from ne_of_lt hd), if_neg (show ¬0 < d from lt_asymm hd)]

lemma checkBoundaryExpr_err_of_illegalEnd {bexpr : BoundaryExpr}
    (h : illegalEndShape bexpr) : ∃ e, checkBoundaryExpr bexpr = Except.error e := by
  rcases h with ⟨p, rfl⟩ | ⟨w, d, rfl, hd⟩ | ⟨w, d, rfl, hd⟩
  · exact ⟨_, rfl⟩
  · refine ⟨"positive time delta applied to an end field", ?_⟩
    simp only [checkBoundaryExpr]
    rw [if_neg (show ¬d = 0 from ne_of_gt hd), if_neg (show ¬d < 0 from lt_asymm hd)]
  · refine ⟨"negative time delta applied to a start field", ?_⟩
    simp only [checkBoundaryExpr]
    rw [if_neg (show ¬d = 0 from ne_of_lt hd), if_neg (show ¬0 < d from lt_asymm hd)]

lemma illegalStartShape_ne_null {bexpr : BoundaryExpr} (h : illegalStartShape bexpr) :
    bexpr ≠ BoundaryExpr.nullB := by
  rcases h with ⟨p, rfl⟩ | ⟨w, d, rfl, -⟩ | ⟨w, d, rfl, -⟩ <;> simp

lemma illegalEndShape_ne_null {bexpr : BoundaryExpr} (h : illegalEndShape bexpr) :
    bexpr ≠ BoundaryExpr.nullB := by
  rcases h with ⟨p, rfl⟩ | ⟨w, d, rfl, -⟩ | ⟨w, d, rfl, -⟩ <;> simp

/-- C8: a window whose boundary expression is illegal — a next (`->`)
reference on a start that references its own end, a previous (`<-`) reference
on an end that references its own start, or an offset whose sign is
inconsistent with the referenced field's direction — is rejected by
configuration validation with a `ConfigError` instead of producing a validated
configuration. -/
theorem postInit_rejects_illegal (wc : WindowConfig)
    (h : illegalStartShape wc.wstart ∨ illegalEndShape wc.wend) :
    ∃ e, wc.postInit = Except.error e := by
  unfold WindowConfig.postInit
  rcases h with hs | he
  · rw [if_neg (fun hc => illegalStartShape_ne_null hs hc.1)]
    obtain ⟨e, he⟩ := checkBoundaryExpr_err_of_illegalStart hs
    rw [he]
    exact ⟨e, rfl⟩
  · rw [if_neg (fun hc => illegalEndShape_ne_null he hc.2)]
    obtain ⟨e, hee⟩ := checkBoundaryExpr_err_of_illegalEnd he
    cases hcs : checkBoundaryExpr wc.wstart with
    | error e' => exact ⟨e', rfl⟩
    | ok u => rw [hee]; exact ⟨e, rfl⟩

theorem postInit_rejects_illegal_witness :
    (illegalStartShape (BoundaryExpr.nextB (.endField none) "discharge") ∨
      illegalEndShape (BoundaryExpr.refB .trigger)) ∧
    ∃ e, (⟨BoundaryExpr.nextB (.endField none) "discharge",
           BoundaryExpr.refB .trigger, true, true⟩ : WindowConfig).postInit =
          Except.error e :=
  ⟨Or.inl (Or.inl ⟨"discharge", rfl⟩),
   postInit_rejects_illegal
     ⟨BoundaryExpr.nextB (.endField none) "discharge",
      BoundaryExpr.refB .trigger, true, true⟩
     (Or.inl (Or.inl ⟨"discharge", rfl⟩))⟩

lemma aggregateEdge_name {df : PredDF} {np : Nat} {e : EdgeExpr} {nm : String}
    {s : Subj} {aTs off : Int} {ws : WindowStruct} {ca co : Int}
    (h : aggregateEdge df np e nm s aTs off = some (ws, ca, co)) : ws.name = nm := by
  cases e <;> simp only [aggregateEdge] at h
  case temporal li delta ri =>
      obtain ⟨h1, -, -⟩ := Prod.mk.injEq .. ▸ (Option.some.injEq .. ▸ h)
      subst h1; rfl
  case evNext li b ri =>
      split at h
      · simp at h
      next child hfa =>
        simp only [Option.some.injEq, Prod.mk.injEq] at h
        obtain ⟨h1, -, -⟩ := h
        subst h1; rfl
  case evPrev li b ri =>
      split at h
      · simp at h
      next child hfa =>
        simp only [Option.some.injEq, Prod.mk.injEq] at h
        obtain ⟨h1, -, -⟩ := h
        subst h1; rfl

lemma findHas_mem_names {f : WForest} {q : String} {hbs : List HasBound}
    (h : f.findHas q = some hbs) : q ∈ f.names := by
  induction f generalizing hbs with
  | nil => simp [WForest.findHas] at h
  | node nm e has cs rest ihc ihr =>
      simp only [WForest.findHas] at h
      by_cases hq : nm = q
      · simp [WForest.names, hq]
      · rw [if_neg hq] at h
        cases hcs : WForest.findHas cs q with
        | some h' =>
            rw [hcs] at h
            simp [WForest.names, ihc hcs]
        | none =>
            rw [hcs] at h
            simp [WForest.names, ihr h]

lemma findHas_of_mem_names {f : WForest} {q : String}
    (h : q ∈ f.names) : ∃ hbs, f.findHas q = some hbs := by
  induction f with
  | nil => simp [WForest.names] at h
  | node nm e has cs rest ihc ihr =>
      simp only [WForest.names, List.mem_cons, List.mem_append] at h
      simp only [WForest.findHas]
      by_cases hq : nm = q
      · rw [if_pos hq]; exact ⟨has, rfl⟩
      · rw [if_neg hq]
        rcases h with h0 | hc | hr
        · exact absurd h0.symm hq
        · obtain ⟨hbs, hcs⟩ := ihc hc
          rw [hcs]; exact ⟨hbs, rfl⟩
        · cases hcs : WForest.findHas cs q with
          | some h' => exact ⟨h', rfl⟩
          | none =>
              obtain ⟨hbs, hrs⟩ := ihr hr
              rw [hrs]; exact ⟨hbs, rfl⟩

lemma extractForest_names {df : PredDF} {np : Nat} (f : WForest) :
    ∀ {s : Subj} {aTs off : Int} {ws : List WindowStruct},
      extractForest df np f s aTs off = some ws →
      ∀ w ∈ ws, w.name ∈ f.names := by
  induction f with
  | nil =>
      intro s aTs off ws h w hw
      simp only [extractForest, Option.some.injEq] at h
      subst h; simp at hw
  | node nm e has cs rest ihc ihr =>
      intro s aTs off ws h w hw
      simp only [extractForest] at h
      split at h
      · simp at h
      next w0 ca co hagg =>
        split at h
        · split at h
          · next sub sibs hsub hsibs =>
              simp only [Option.some.injEq] at h
              subst h
              rcases List.mem_cons.mp hw with h0 | hmem
              · subst h0
                simp [WForest.names, aggregateEdge_name hagg]
              · rcases List.mem_append.mp hmem with hs | hb
                · simp [WForest.names, ihc hsub w hs]
                · simp [WForest.names, ihr hsibs w hb]
          · simp at h
        · simp at h

lemma extractForest_constraints {df : PredDF} {np : Nat} (f : WForest) :
    ∀ {s : Subj} {aTs off : Int} {ws : List WindowStruct},
      f.names.Nodup →
      extractForest df np f s aTs off = some ws →
      ∀ w ∈ ws, ∀ hbs, f.findHas w.name = some hbs →
        check_constraints hbs w.counts = true := by
  induction f with
  | nil =>
      intro s aTs off ws _ h w hw
      simp only [extractForest, Option.some.injEq] at h
      subst h; simp at hw
  | node nm e has cs rest ihc ihr =>
      intro s aTs off ws hnd h w hw hbs hfind
      have hnd' := hnd
      simp only [WForest.names, List.nodup_cons] at hnd'
      obtain ⟨hnm, happ⟩ := hnd'
      have hcs_nd : cs.names.Nodup := (List.nodup_append.mp happ).1
      have hrest_nd : rest.names.Nodup := (List.nodup_append.mp happ).2.1
      have hdisj := (List.nodup_append.mp happ).2.2
      simp only [extractForest] at h
      split at h
      · simp at h
      next w0 ca co hagg =>
        split at h
        next hchk =>
          split at h
          · next sub sibs hsub hsibs =>
              simp only [Option.some.injEq] at h
              subst h
              rcases List.mem_cons.mp hw with h0 | hmem
              · subst h0
                have hn := aggregateEdge_name hagg
                simp [WForest.findHas, hn] at hfind
                subst hfind
                exact hchk
              · rcases List.mem_append.mp hmem with hs | hb
                · have hwn : w.name ∈ cs.names := extractForest_names cs hsub w hs
                  have hne : nm ≠ w.name := fun hc => hnm (hc ▸ (List.mem_append.mpr (Or.inl hwn)))
                  simp only [WForest.findHas, if_neg hne] at hfind
                  obtain ⟨hbs', hcs⟩ := findHas_of_mem_names hwn
                  rw [hcs] at hfind
                  simp only [Option.some.injEq] at hfind
                  subst hfind
                  exact ihc hcs_nd hsub w hs hbs' hcs
                · have hwn : w.name ∈ rest.names := extractForest_names rest hsibs w hb
                  have hne : nm ≠ w.name := fun hc => hnm (hc ▸ (List.mem_append.mpr (Or.inr hwn)))
                  simp only [WForest.findHas, if_neg hne] at hfind
                  cases hcs : WForest.findHas cs w.name with
                  | some h' =>
                      exact absurd hwn (hdisj (findHas_mem_names hcs))
                  | none =>
                      rw [hcs] at hfind
                      exact ihr hrest_nd hsibs w hb hbs hfind
          · simp at h
        · simp at h

/-- C2: in every valid output row, every window with a declared `has`
constraint `(lo, hi)` on predicate `p` records a count of `p` lying in the
closed interval: at least `lo` when a lower bound is present and at most `hi`
when an upper bound is present, both inclusive. -/
theorem query_constraints_satisfied (df : PredDF) (task : TaskCfg) (r : Realization)
    (hnd : task.children.names.Nodup) (hr : r ∈ query df task) :
    ∀ w ∈ r.windows, ∀ hbs, task.children.findHas w.name = some hbs →
      check_constraints hbs w.counts = true := by
  obtain ⟨row, -, -, hext, -, -⟩ := query_mem_extract hr
  exact extractForest_constraints task.children hnd hext

theorem query_constraints_satisfied_witness :
    (WForest.names (.node "target" (.evNext true 1 true) [⟨2, some 1, some 3⟩] .nil .nil)).Nodup ∧
    check_constraints [⟨2, some 1, some 3⟩]
      (⟨"target", 0, 20, [1, 1, 3]⟩ : WindowStruct).counts = true :=
  ⟨by decide,
   query_constraints_satisfied
     [⟨1, 0, [1, 0, 1]⟩, ⟨1, 10, [0, 0, 1]⟩, ⟨1, 20, [0, 1, 1]⟩]
     ⟨0, 3, .node "target" (.evNext true 1 true) [⟨2, some 1, some 3⟩] .nil .nil⟩
     ⟨1, 0, [⟨"target", 0, 20, [1, 1, 3]⟩]⟩
     (by decide) (by decide)
     ⟨"target", 0, 20, [1, 1, 3]⟩ (by decide)
     [⟨2, some 1, some 3⟩] (by decide)⟩

lemma extractForest_none_of_branch_none {df : PredDF} {np : Nat} (f : WForest) :
    ∀ {nm : String} {e : EdgeExpr} {hbs : List HasBound} {cs : WForest}
      {s : Subj} {aTs off : Int},
      (nm, e, hbs, cs) ∈ f.branches →
      extractForest df np (.node nm e hbs cs .nil) s aTs off = none →
      extractForest df np f s aTs off = none := by
  induction f with
  | nil =>
      intro nm e hbs cs s aTs off hbr
      simp [WForest.branches] at hbr
  | node nm' e' h' cs' rest' ihc ihr =>
      intro nm e hbs cs s aTs off hbr hfail
      simp only [WForest.branches, List.mem_cons] at hbr
      rcases hbr with hhd | htl
      · simp only [Prod.mk.injEq] at hhd
        obtain ⟨h1, h2, h3, h4⟩ := hhd
        subst h1; subst h2; subst h3; subst h4
        simp only [extractForest] at hfail ⊢
        split at hfail
        · rfl
        next w0 ca co hagg =>
          split at hfail
          next hchk =>
            rw [if_pos hchk]
            split at hfail
            · next sub sibs hsub hsibs => simp at hfail
            · next hnone =>
                cases hsub : extractForest df np cs s ca co with
                | none =>
                    cases extractForest df np rest' s aTs off <;> rfl
                | some sub =>
                    exact (hnone sub [] hsub rfl).elim
          next hchk => rw [if_neg hchk]
      · have hrest := ihr htl hfail
        simp only [extractForest]
        split
        · rfl
        next w0 ca co hagg =>
          by_cases hchk : check_constraints h' w0.counts = true
          · rw [if_pos hchk, hrest]
            cases extractForest df np cs' s ca co <;> rfl
          · rw [if_neg hchk]

/-- C4: sibling windows are combined with inner-join semantics: if any one
branch of the window forest has no valid realization for a given
`(subject, anchor)` pair, that pair produces no output row at all, even when
other sibling branches succeed. -/
theorem query_inner_join_all_branches (df : PredDF) (task : TaskCfg)
    (nm : String) (e : EdgeExpr) (hbs : List HasBound) (cs : WForest)
    (s : Subj) (aTs : Int)
    (hbr : (nm, e, hbs, cs) ∈ task.children.branches)
    (hfail : extractForest df task.np (.node nm e hbs cs .nil) s aTs 0 = none) :
    ∀ r ∈ query df task, ¬(r.subj = s ∧ r.anchor_ts = aTs) := by
  rintro r hr ⟨hs, ha⟩
  obtain ⟨row, -, -, hext, hsu, hat⟩ := query_mem_extract hr
  have hnone : extractForest df task.np task.children s aTs 0 = none :=
    extractForest_none_of_branch_none task.children hbr hfail
  rw [hsu] at hs
  rw [hat] at ha
  rw [hs, ha] at hext
  rw [hext] at hnone
  exact Option.noConfusion hnone

theorem query_inner_join_all_branches_witness :
    ("b", EdgeExpr.evNext true 1 true, ([] : List HasBound), WForest.nil) ∈
      (WForest.node "a" (.temporal true 10 true) [] .nil
        (.node "b" (.evNext true 1 true) [] .nil .nil)).branches ∧
    extractForest [⟨1, 0, [1, 0, 1]⟩, ⟨1, 10, [0, 0, 1]⟩] 3
      (.node "b" (.evNext true 1 true) [] .nil .nil) 1 0 0 = none ∧
    ∀ r ∈ query [⟨1, 0, [1, 0, 1]⟩, ⟨1, 10, [0, 0, 1]⟩]
        ⟨0, 3, .node "a" (.temporal true 10 true) [] .nil
          (.node "b" (.evNext true 1 true) [] .nil .nil)⟩,
      ¬(r.subj = 1 ∧ r.anchor_ts = 0) :=
  ⟨by decide, by decide,
   query_inner_join_all_branches [⟨1, 0, [1, 0, 1]⟩, ⟨1, 10, [0, 0, 1]⟩]
     ⟨0, 3, .node "a" (.temporal true 10 true) [] .nil
       (.node "b" (.evNext true 1 true) [] .nil .nil)⟩
     "b" (.evNext true 1 true) [] .nil 1 0 (by decide) (by decide)⟩

lemma find?_eq_of_mem_unique {l : List WindowStruct} {w : WindowStruct} {wn : String}
    (hw : w ∈ l) (hn : w.name = wn)
    (hpw : l.Pairwise (fun a b => a.name ≠ b.name)) :
    l.find? (fun ws => ws.name == wn) = some w := by
  induction l with
  | nil => simp at hw
  | cons hd tl ih =>
      obtain ⟨hhd, htl⟩ := List.pairwise_cons.mp hpw
      rcases List.mem_cons.mp hw with h0 | hmem
      · subst h0
        simp [List.find?, hn]
      · have hne : hd.name ≠ wn := fun hc => hhd w hmem (hc.trans hn.symm)
        rw [List.find?]
        rw [show (hd.name == wn) = false from beq_eq_false_iff_ne.mpr hne]
        exact ih hmem htl

/-- C9: when a label window naming predicate `p` is configured, the label
column of every output row equals the integer count of `p` recorded in that
window's result struct — the count itself, not a 0/1 threshold. -/
theorem query_label_eq_count (df : PredDF) (task : TaskCfg) (labelWin : String)
    (labelPred : PredIdx) (r : Realization) (lab : Nat)
    (hrl : (r, lab) ∈ queryWithLabel df task labelWin labelPred)
    (hpw : r.windows.Pairwise (fun a b => a.name ≠ b.name))
    (w : WindowStruct) (hw : w ∈ r.windows) (hn : w.name = labelWin) :
    lab = w.counts.getD labelPred 0 := by
  unfold queryWithLabel at hrl
  obtain ⟨r', hr', heq⟩ := List.mem_map.mp hrl
  simp only [Prod.mk.injEq] at heq
  obtain ⟨hre, hle⟩ := heq
  subst hre
  rw [find?_eq_of_mem_unique hw hn hpw] at hle
  exact hle.symm

theorem query_label_eq_count_witness :
    ((⟨1, 0, [⟨"target", 0, 20, [1, 1, 3]⟩]⟩ : Realization), 1) ∈
      queryWithLabel [⟨1, 0, [1, 0, 1]⟩, ⟨1, 10, [0, 0, 1]⟩, ⟨1, 20, [0, 1, 1]⟩]
        ⟨0, 3, .node "target" (.evNext true 1 true) [] .nil .nil⟩ "target" 1 ∧
    1 = (⟨"target", 0, 20, [1, 1, 3]⟩ : WindowStruct).counts.getD 1 0 :=
  ⟨by decide,
   query_label_eq_count
     [⟨1, 0, [1, 0, 1]⟩, ⟨1, 10, [0, 0, 1]⟩, ⟨1, 20, [0, 1, 1]⟩]
     ⟨0, 3, .node "target" (.evNext true 1 true) [] .nil .nil⟩ "target" 1
     ⟨1, 0, [⟨"target", 0, 20, [1, 1, 3]⟩]⟩ 1 (by decide) (by decide)
     ⟨"target", 0, 20, [1, 1, 3]⟩ (by decide) (by decide)⟩

lemma eligNext_subj {s : Subj} {b : PredIdx} {li : Bool} {root : Int} {r : Row}
    (h : eligNext s b li root r = true) : r.subj = s := by
  unfold eligNext at h
  obtain ⟨h1, -⟩ := Bool.and_eq_true_iff.mp h
  obtain ⟨h1, -⟩ := Bool.and_eq_true_iff.mp h1
  exact beq_iff_eq.mp h1

lemma eligPrev_subj {s : Subj} {b : PredIdx} {ri : Bool} {root : Int} {r : Row}
    (h : eligPrev s b ri root r = true) : r.subj = s := by
  unfold eligPrev at h
  obtain ⟨h1, -⟩ := Bool.and_eq_true_iff.mp h
  obtain ⟨h1, -⟩ := Bool.and_eq_true_iff.mp h1
  exact beq_iff_eq.mp h1

lemma filter_eligNext_d1_nil {d1 : PredDF} {s : Subj} {b : PredIdx} {aTs : Int}
    (hd1 : ∀ r' ∈ d1, r'.subj = s → r'.ts < aTs) :
    d1.filter (eligNext s b true (aTs + 0)) = [] := by
  refine List.filter_eq_nil_iff.mpr (fun r' hr' helig => ?_)
  have hts := eligNext_ts helig
  have hlt := hd1 r' hr' (eligNext_subj helig)
  omega

lemma windowSum_single_point {d1 d2 : PredDF} {aRow : Row} {s : Subj}
    (hsubj : aRow.subj = s)
    (hd1 : ∀ r' ∈ d1, r'.subj = s → r'.ts < aRow.ts)
    (hd2 : ∀ r' ∈ d2, r'.subj = s → aRow.ts < r'.ts) (p : PredIdx) :
    windowSum (d1 ++ aRow :: d2) s true aRow.ts true aRow.ts p = cnt aRow p := by
  unfold windowSum
  rw [List.filter_append]
  have h1 : d1.filter (fun r => r.subj == s && inWindow true aRow.ts true aRow.ts r.ts) = [] := by
    refine List.filter_eq_nil_iff.mpr (fun r' hr' hc => ?_)
    simp only [inWindow, if_true, Bool.and_eq_true, beq_iff_eq, decide_eq_true_eq] at hc
    obtain ⟨hs', hts1, -⟩ := hc
    have := hd1 r' hr' hs'
    omega
  have h2 : (aRow :: d2).filter
      (fun r => r.subj == s && inWindow true aRow.ts true aRow.ts r.ts) = [aRow] := by
    rw [List.filter_cons_of_pos (by simp [inWindow, hsubj])]
    have hnil : d2.filter (fun r => r.subj == s && inWindow true aRow.ts true aRow.ts r.ts) = [] := by
      refine List.filter_eq_nil_iff.mpr (fun r' hr' hc => ?_)
      simp only [inWindow, if_true, Bool.and_eq_true, beq_iff_eq, decide_eq_true_eq] at hc
      obtain ⟨hs', -, hts2⟩ := hc
      have := hd2 r' hr' hs'
      omega
    rw [hnil]
  rw [h1, h2]
  simp

/-- C10: for an event-bound window with both endpoints inclusive — in either
the forward `end = start -> p` form or the symmetric backward
`start = end <- p` form — whose anchor row itself satisfies the boundary
predicate, a single-point realization with start timestamp equal to end
timestamp is produced as a valid output row, provided the window's `has`
constraints are met by that single row's counts: zero-length windows are
permitted under inclusive endpoints. -/
theorem query_single_point_realization (d1 d2 : PredDF) (aRow : Row) (s : Subj)
    (trig b : PredIdx) (np : Nat) (hbs : List HasBound) (nm : String) (e : EdgeExpr)
    (he : e = .evNext true b true ∨ e = .evPrev true b true)
    (hsubj : aRow.subj = s)
    (hd1 : ∀ r' ∈ d1, r'.subj = s → r'.ts < aRow.ts)
    (hd2 : ∀ r' ∈ d2, r'.subj = s → aRow.ts < r'.ts)
    (htrig : 0 < cnt aRow trig)
    (hb : 0 < cnt aRow b)
    (hchk : check_constraints hbs ((List.range np).map (fun p => cnt aRow p)) = true) :
    (⟨s, aRow.ts, [⟨nm, aRow.ts, aRow.ts,
        (List.range np).map (fun p => cnt aRow p)⟩]⟩ : Realization)
      ∈ query (d1 ++ aRow :: d2) ⟨trig, np, .node nm e hbs .nil .nil⟩ := by
  have hwc : wcounts (d1 ++ aRow :: d2) s true aRow.ts true aRow.ts np =
      (List.range np).map (fun p => cnt aRow p) := by
    unfold wcounts
    exact List.map_congr_left (fun p _ => windowSum_single_point hsubj hd1 hd2 p)
  have hagg : aggregateEdge (d1 ++ aRow :: d2) np e nm s aRow.ts 0 =
      some (⟨nm, aRow.ts, aRow.ts, (List.range np).map (fun p => cnt aRow p)⟩,
            aRow.ts, 0) := by
    rcases he with he | he <;> subst he
    · have hfa : firstAfter (d1 ++ aRow :: d2) s b true (aRow.ts + 0) = some aRow := by
        unfold firstAfter
        rw [List.filter_append, filter_eligNext_d1_nil hd1]
        rw [List.filter_cons_of_pos (by simp [eligNext, hsubj, hb])]
        rfl
      simp only [aggregateEdge, hfa]
      rw [show aRow.ts + 0 = aRow.ts from add_zero _]
      rw [hwc]
    · have hlb : lastBefore (d1 ++ aRow :: d2) s b true (aRow.ts + 0) = some aRow := by
        unfold lastBefore
        have hnil2 : d2.filter (eligPrev s b true (aRow.ts + 0)) = [] := by
          refine List.filter_eq_nil_iff.mpr (fun r' hr' helig => ?_)
          have hts := eligPrev_ts helig
          have hlt := hd2 r' hr' (eligPrev_subj helig)
          omega
        rw [List.filter_append]
        rw [List.filter_cons_of_pos (by simp [eligPrev, hsubj, hb])]
        rw [hnil2, List.getLast?_append]
        simp
      simp only [aggregateEdge, hlb]
      rw [show aRow.ts + 0 = aRow.ts from add_zero _]
      rw [hwc]
  have hext : extractForest (d1 ++ aRow :: d2) np
      (.node nm e hbs .nil .nil) s aRow.ts 0 =
      some [⟨nm, aRow.ts, aRow.ts, (List.range np).map (fun p => cnt aRow p)⟩] := by
    simp only [extractForest, hagg]
    rw [if_pos hchk]
    rfl
  unfold query
  refine List.mem_filterMap.mpr ⟨aRow, ?_, ?_⟩
  · refine List.mem_filter.mpr ⟨by simp, by simpa using htrig⟩
  · rw [hsubj, hext]
    rfl

theorem query_single_point_realization_witness :
    (EdgeExpr.evPrev true 0 true = EdgeExpr.evNext true 0 true ∨
      EdgeExpr.evPrev true 0 true = EdgeExpr.evPrev true 0 true) ∧
    (⟨1, 5, [⟨"target", 5, 5, [1, 1]⟩]⟩ : Realization) ∈
      query [⟨1, 0, [0, 1]⟩, ⟨1, 5, [1, 1]⟩, ⟨1, 9, [0, 1]⟩]
        ⟨0, 2, .node "target" (.evPrev true 0 true) [⟨1, some 1, none⟩] .nil .nil⟩ :=
  ⟨Or.inr rfl,
   query_single_point_realization [⟨1, 0, [0, 1]⟩] [⟨1, 9, [0, 1]⟩] ⟨1, 5, [1, 1]⟩ 1 0 0 2
     [⟨1, some 1, none⟩] "target" (.evPrev true 0 true) (Or.inr rfl)
     (by decide) (by decide) (by decide) (by decide) (by decide) (by decide)⟩

lemma windowSum_append_right {d1 d2 : PredDF} {s : Subj} {li ri : Bool} {lo hi : Int}
    {p : PredIdx} (hd2 : ∀ r ∈ d2, r.subj ≠ s) :
    windowSum (d1 ++ d2) s li lo ri hi p = windowSum d1 s li lo ri hi p := by
  unfold windowSum
  rw [List.filter_append]
  have hnil : d2.filter (fun r => r.subj == s && inWindow li lo ri hi r.ts) = [] :=
    List.filter_eq_nil_iff.mpr (fun r hr hc => by
      obtain ⟨h1, -⟩ := Bool.and_eq_true_iff.mp hc
      exact hd2 r hr (beq_iff_eq.mp h1))
  rw [hnil, List.append_nil]

lemma windowSum_append_left {d1 d2 : PredDF} {s : Subj} {li ri : Bool} {lo hi : Int}
    {p : PredIdx} (hd1 : ∀ r ∈ d1, r.subj ≠ s) :
    windowSum (d1 ++ d2) s li lo ri hi p = windowSum d2 s li lo ri hi p := by
  unfold windowSum
  rw [List.filter_append]
  have hnil : d1.filter (fun r => r.subj == s && inWindow li lo ri hi r.ts) = [] :=
    List.filter_eq_nil_iff.mpr (fun r hr hc => by
      obtain ⟨h1, -⟩ := Bool.and_eq_true_iff.mp hc
      exact hd1 r hr (beq_iff_eq.mp h1))
  rw [hnil, List.nil_append]

lemma wcounts_append_right {d1 d2 : PredDF} {s : Subj} {li ri : Bool} {lo hi : Int}
    {np : Nat} (hd2 : ∀ r ∈ d2, r.subj ≠ s) :
    wcounts (d1 ++ d2) s li lo ri hi np = wcounts d1 s li lo ri hi np := by
  unfold wcounts
  exact List.map_congr_left (fun p _ => windowSum_append_right hd2)

lemma wcounts_append_left {d1 d2 : PredDF} {s : Subj} {li ri : Bool} {lo hi : Int}
    {np : Nat} (hd1 : ∀ r ∈ d1, r.subj ≠ s) :
    wcounts (d1 ++ d2) s li lo ri hi np = wcounts d2 s li lo ri hi np := by
  unfold wcounts
  exact List.map_congr_left (fun p _ => windowSum_append_left hd1)

lemma firstAfter_append_right {d1 d2 : PredDF} {s : Subj} {b : PredIdx} {li : Bool}
    {root : Int} (hd2 : ∀ r ∈ d2, r.subj ≠ s) :
    firstAfter (d1 ++ d2) s b li root = firstAfter d1 s b li root := by
  unfold firstAfter
  rw [List.filter_append]
  have hnil : d2.filter (eligNext s b li root) = [] :=
    List.filter_eq_nil_iff.mpr (fun r hr hc => hd2 r hr (eligNext_subj hc))
  rw [hnil, List.append_nil]

lemma firstAfter_append_left {d1 d2 : PredDF} {s : Subj} {b : PredIdx} {li : Bool}
    {root : Int} (hd1 : ∀ r ∈ d1, r.subj ≠ s) :
    firstAfter (d1 ++ d2) s b li root = firstAfter d2 s b li root := by
  unfold firstAfter
  rw [List.filter_append]
  have hnil : d1.filter (eligNext s b li root) = [] :=
    List.filter_eq_nil_iff.mpr (fun r hr hc => hd1 r hr (eligNext_subj hc))
  rw [hnil, List.nil_append]

lemma lastBefore_append_right {d1 d2 : PredDF} {s : Subj} {b : PredIdx} {ri : Bool}
    {root : Int} (hd2 : ∀ r ∈ d2, r.subj ≠ s) :
    lastBefore (d1 ++ d2) s b ri root = lastBefore d1 s b ri root := by
  unfold lastBefore
  rw [List.filter_append]
  have hnil : d2.filter (eligPrev s b ri root) = [] :=
    List.filter_eq_nil_iff.mpr (fun r hr hc => hd2 r hr (eligPrev_subj hc))
  rw [hnil, List.append_nil]

lemma lastBefore_append_left {d1 d2 : PredDF} {s : Subj} {b : PredIdx} {ri : Bool}
    {root : Int} (hd1 : ∀ r ∈ d1, r.subj ≠ s) :
    lastBefore (d1 ++ d2) s b ri root = lastBefore d2 s b ri root := by
  unfold lastBefore
  rw [List.filter_append]
  have hnil : d1.filter (eligPrev s b ri root) = [] :=
    List.filter_eq_nil_iff.mpr (fun r hr hc => hd1 r hr (eligPrev_subj hc))
  rw [hnil, List.nil_append]

lemma aggregateEdge_append_right {d1 d2 : PredDF} {np : Nat} {e : EdgeExpr}
    {nm : String} {s : Subj} {aTs off : Int} (hd2 : ∀ r ∈ d2, r.subj ≠ s) :
    aggregateEdge (d1 ++ d2) np e nm s aTs off = aggregateEdge d1 np e nm s aTs off := by
  cases e with
  | temporal li delta ri =>
      simp only [aggregateEdge]
      rw [wcounts_append_right hd2]
  | evNext li b ri =>
      cases hfa : firstAfter d1 s b li (aTs + off) with
      | none => simp only [aggregateEdge, firstAfter_append_right hd2, hfa]
      | some child =>
          simp only [aggregateEdge, firstAfter_append_right hd2, hfa,
            wcounts_append_right hd2]
  | evPrev li b ri =>
      cases hfa : lastBefore d1 s b ri (aTs + off) with
      | none => simp only [aggregateEdge, lastBefore_append_right hd2, hfa]
      | some child =>
          simp only [aggregateEdge, lastBefore_append_right hd2, hfa,
            wcounts_append_right hd2]

lemma aggregateEdge_append_left {d1 d2 : PredDF} {np : Nat} {e : EdgeExpr}
    {nm : String} {s : Subj} {aTs off : Int} (hd1 : ∀ r ∈ d1, r.subj ≠ s) :
    aggregateEdge (d1 ++ d2) np e nm s aTs off = aggregateEdge d2 np e nm s aTs off := by
  cases e with
  | temporal li delta ri =>
      simp only [aggregateEdge]
      rw [wcounts_append_left hd1]
  | evNext li b ri =>
      cases hfa : firstAfter d2 s b li (aTs + off) with
      | none => simp only [aggregateEdge, firstAfter_append_left hd1, hfa]
      | some child =>
          simp only [aggregateEdge, firstAfter_append_left hd1, hfa,
            wcounts_append_left hd1]
  | evPrev li b ri =>
      cases hfa : lastBefore d2 s b ri (aTs + off) with
      | none => simp only [aggregateEdge, lastBefore_append_left hd1, hfa]
      | some child =>
          simp only [aggregateEdge, lastBefore_append_left hd1, hfa,
            wcounts_append_left hd1]

lemma extractForest_append_right {d1 d2 : PredDF} {np : Nat} (f : WForest) {s : Subj}
    (hd2 : ∀ r ∈ d2, r.subj ≠ s) :
    ∀ {aTs off : Int},
      extractForest (d1 ++ d2) np f s aTs off = extractForest d1 np f s aTs off := by
  induction f with
  | nil => intro aTs off; rfl
  | node nm e has cs rest ihc ihr =>
      intro aTs off
      cases hagg : aggregateEdge d1 np e nm s aTs off with
      | none => simp only [extractForest, aggregateEdge_append_right hd2, hagg]
      | some v =>
          obtain ⟨w0, ca, co⟩ := v
          simp only [extractForest, aggregateEdge_append_right hd2, hagg, ihc, ihr]

lemma extractForest_append_left {d1 d2 : PredDF} {np : Nat} (f : WForest) {s : Subj}
    (hd1 : ∀ r ∈ d1, r.subj ≠ s) :
    ∀ {aTs off : Int},
      extractForest (d1 ++ d2) np f s aTs off = extractForest d2 np f s aTs off := by
  induction f with
  | nil => intro aTs off; rfl
  | node nm e has cs rest ihc ihr =>
      intro aTs off
      cases hagg : aggregateEdge d2 np e nm s aTs off with
      | none => simp only [extractForest, aggregateEdge_append_left hd1, hagg]
      | some v =>
          obtain ⟨w0, ca, co⟩ := v
          simp only [extractForest, aggregateEdge_append_left hd1, hagg, ihc, ihr]

lemma query_append {d1 d2 : PredDF} {task : TaskCfg}
    (hdisj : ∀ r ∈ d1, ∀ r' ∈ d2, r.subj ≠ r'.subj) :
    query (d1 ++ d2) task = query d1 task ++ query d2 task := by
  unfold query
  rw [List.filter_append, List.filterMap_append]
  congr 1
  · refine List.filterMap_congr (fun row hrow => ?_)
    have hmem := List.mem_of_mem_filter hrow
    rw [extractForest_append_right task.children
        (fun r' hr' hc => hdisj row hmem r' hr' hc.symm)]
  · refine List.filterMap_congr (fun row hrow => ?_)
    have hmem := List.mem_of_mem_filter hrow
    rw [extractForest_append_left task.children
        (fun r hr hc => hdisj r hr row hmem hc)]

/-- C6: partitioning the predicates table by subject into shards and
concatenating the per-shard extraction results yields exactly the result of a
single run on the whole table: no aggregation or join ever combines rows from
two different subjects. -/
theorem query_shard_concat (shards : List PredDF) (task : TaskCfg)
    (hdisj : shards.Pairwise (fun A B => ∀ r ∈ A, ∀ r' ∈ B, r.subj ≠ r'.subj)) :
    query shards.flatten task = (shards.map (fun d => query d task)).flatten := by
  induction shards with
  | nil => rfl
  | cons d rest ih =>
      obtain ⟨hd, htl⟩ := List.pairwise_cons.mp hdisj
      rw [List.flatten_cons, List.map_cons, List.flatten_cons]
      rw [query_append (fun r hr r' hr' => by
        obtain ⟨B, hB, hrB⟩ := List.mem_flatten.mp hr'
        exact hd B hB r hr r' hrB)]
      rw [ih htl]

theorem query_shard_concat_witness :
    ([[(⟨1, 0, [1, 1]⟩ : Row), ⟨1, 10, [0, 1]⟩], [⟨2, 3, [1, 1]⟩]].Pairwise
      (fun A B => ∀ r ∈ A, ∀ r' ∈ B, r.subj ≠ r'.subj)) ∧
    query ([[(⟨1, 0, [1, 1]⟩ : Row), ⟨1, 10, [0, 1]⟩], [⟨2, 3, [1, 1]⟩]].flatten)
        ⟨0, 2, .node "w" (.temporal true 10 true) [] .nil .nil⟩ =
      ([[(⟨1, 0, [1, 1]⟩ : Row), ⟨1, 10, [0, 1]⟩], [⟨2, 3, [1, 1]⟩]].map
        (fun d => query d ⟨0, 2, .node "w" (.temporal true 10 true) [] .nil .nil⟩)).flatten :=
  ⟨by decide,
   query_shard_concat [[⟨1, 0, [1, 1]⟩, ⟨1, 10, [0, 1]⟩], [⟨2, 3, [1, 1]⟩]]
     ⟨0, 2, .node "w" (.temporal true 10 true) [] .nil .nil⟩ (by decide)⟩

lemma condSum_cons (pr : Row → Bool) (r : Row) (rows : PredDF) (p : PredIdx) :
    condSum pr (r :: rows) p =
      (if pr r then cnt r p else 0) + condSum pr rows p := by
  unfold condSum
  by_cases h : pr r
  · rw [List.filter_cons_of_pos h, if_pos h]
    simp
  · rw [List.filter_cons_of_neg (by simpa using h), if_neg h]
    simp

lemma condSum_split (pr pr2 pr3 : Row → Bool) (rows : PredDF) (p : PredIdx)
    (h : ∀ r, pr r = (pr2 r || pr3 r)) (hx : ∀ r, pr2 r = true → pr3 r = false) :
    condSum pr rows p = condSum pr2 rows p + condSum pr3 rows p := by
  induction rows with
  | nil => rfl
  | cons r rest ih =>
      rw [condSum_cons, condSum_cons, condSum_cons, ih, h r]
      by_cases h2 : pr2 r
      · rw [hx r h2]
        simp [h2]
        omega
      · by_cases h3 : pr3 r <;> simp [h2, h3] <;> omega

lemma findIdxFirst_spec (pr : Row → Bool) (l : List Row) (j : Nat)
    (h : findIdxFirst pr l = some j) :
    ∃ hj : j < l.length, pr (l.get ⟨j, hj⟩) = true ∧
      ∀ i (hi : i < l.length), i < j → pr (l.get ⟨i, hi⟩) = false := by
  induction l generalizing j with
  | nil => simp [findIdxFirst] at h
  | cons r rest ih =>
      rw [findIdxFirst] at h
      by_cases hr : pr r
      · rw [if_pos hr] at h
        simp only [Option.some.injEq] at h
        subst h
        exact ⟨by simp, hr, fun i hi hlt => absurd hlt (Nat.not_lt_zero i)⟩
      · rw [if_neg hr] at h
        cases hrec : findIdxFirst pr rest with
        | none => rw [hrec] at h; simp at h
        | some k =>
            rw [hrec] at h
            simp only [Option.map_some', Option.some.injEq] at h
            subst h
            obtain ⟨hk, hpk, hmin⟩ := ih k hrec
            refine ⟨Nat.succ_lt_succ hk, hpk, ?_⟩
            intro i hi hlt
            cases i with
            | zero => exact eq_false_of_ne_true hr
            | succ i' =>
                exact hmin i' (Nat.lt_of_succ_lt_succ hi) (Nat.lt_of_succ_lt_succ hlt)

lemma findIdxLast_none (pr : Row → Bool) (l : List Row) (h : findIdxLast pr l = none) :
    ∀ i (hi : i < l.length), pr (l.get ⟨i, hi⟩) = false := by
  induction l with
  | nil => intro i hi; simp at hi
  | cons r rest ih =>
      rw [findIdxLast] at h
      cases hrec : findIdxLast pr rest with
      | some k => rw [hrec] at h; simp at h
      | none =>
          rw [hrec] at h
          by_cases hr : pr r
          · rw [if_pos hr] at h; simp at h
          · intro i hi
            cases i with
            | zero => exact eq_false_of_ne_true hr
            | succ i' => exact ih hrec i' (Nat.lt_of_succ_lt_succ hi)

lemma findIdxLast_spec (pr : Row → Bool) (l : List Row) (j : Nat)
    (h : findIdxLast pr l = some j) :
    ∃ hj : j < l.length, pr (l.get ⟨j, hj⟩) = true ∧
      ∀ i (hi : i < l.length), j < i → pr (l.get ⟨i, hi⟩) = false := by
  induction l generalizing j with
  | nil => simp [findIdxLast] at h
  | cons r rest ih =>
      rw [findIdxLast] at h
      cases hrec : findIdxLast pr rest with
      | some k =>
          rw [hrec] at h
          simp only [Option.some.injEq] at h
          subst h
          obtain ⟨hk, hpk, hmax⟩ := ih k hrec
          refine ⟨Nat.succ_lt_succ hk, hpk, ?_⟩
          intro i hi hlt
          cases i with
          | zero => exact absurd hlt (Nat.not_lt_zero _)
          | succ i' =>
              exact hmax i' (Nat.lt_of_succ_lt_succ hi) (Nat.lt_of_succ_lt_succ hlt)
      | none =>
          rw [hrec] at h
          by_cases hr : pr r
          · rw [if_pos hr] at h
            simp only [Option.some.injEq] at h
            subst h
            refine ⟨by simp, hr, ?_⟩
            intro i hi hlt
            cases i with
            | zero => exact absurd hlt (Nat.not_lt_zero _)
            | succ i' => exact findIdxLast_none pr rest hrec i' (Nat.lt_of_succ_lt_succ hi)
          · rw [if_neg hr] at h
            simp at h

lemma ocSum_interval_split (rows : PredDF) (lo mid hi : Int) (p : PredIdx)
    (h1 : lo ≤ mid) (h2 : mid ≤ hi) :
    ocSum rows lo hi p = ocSum rows lo mid p + ocSum rows mid hi p := by
  unfold ocSum
  refine condSum_split _ _ _ rows p (fun r => ?_) (fun r hp => ?_)
  · rw [Bool.eq_iff_iff]
    simp only [Bool.and_eq_true, Bool.or_eq_true, decide_eq_true_eq]
    omega
  · simp only [Bool.and_eq_true, decide_eq_true_eq] at hp
    rw [Bool.eq_false_iff]
    simp only [ne_eq, Bool.and_eq_true, decide_eq_true_eq, not_and]
    omega

lemma tsWindowSum_cc (rows : PredDF) (lo hi : Int) (p : PredIdx) (h : lo ≤ hi) :
    tsWindowSum rows true lo true hi p = atSum rows lo p + ocSum rows lo hi p := by
  unfold tsWindowSum atSum ocSum
  refine condSum_split _ _ _ rows p (fun r => ?_) (fun r hp => ?_)
  · rw [Bool.eq_iff_iff]
    simp only [inWindow, if_true, Bool.and_eq_true, Bool.or_eq_true, decide_eq_true_eq,
      beq_iff_eq]
    omega
  · simp only [beq_iff_eq] at hp
    rw [Bool.eq_false_iff]
    simp only [ne_eq, Bool.and_eq_true, decide_eq_true_eq, not_and]
    omega

lemma tsWindowSum_right_excl (rows : PredDF) (li : Bool) (lo hi : Int) (p : PredIdx)
    (h : if li then lo ≤ hi else lo < hi) :
    tsWindowSum rows li lo true hi p =
      tsWindowSum rows li lo false hi p + atSum rows hi p := by
  unfold tsWindowSum atSum
  cases li with
  | true =>
      simp only [if_true] at h
      refine condSum_split _ _ _ rows p (fun r => ?_) (fun r hp => ?_)
      · rw [Bool.eq_iff_iff]
        simp only [inWindow, if_true, if_false, Bool.false_eq_true, Bool.and_eq_true, Bool.or_eq_true,
          decide_eq_true_eq, beq_iff_eq]
        omega
      · rw [Bool.eq_false_iff]
        simp only [inWindow, if_true, if_false, Bool.false_eq_true, Bool.and_eq_true, decide_eq_true_eq] at hp
        simp only [ne_eq, beq_iff_eq]
        omega
  | false =>
      simp at h
      refine condSum_split _ _ _ rows p (fun r => ?_) (fun r hp => ?_)
      · rw [Bool.eq_iff_iff]
        simp only [inWindow, if_true, if_false, Bool.false_eq_true, Bool.and_eq_true, Bool.or_eq_true,
          decide_eq_true_eq, beq_iff_eq]
        omega
      · rw [Bool.eq_false_iff]
        simp only [inWindow, if_true, if_false, Bool.false_eq_true, Bool.and_eq_true, decide_eq_true_eq] at hp
        simp only [ne_eq, beq_iff_eq]
        omega

lemma tsWindowSum_oc (rows : PredDF) (lo hi : Int) (p : PredIdx) :
    tsWindowSum rows false lo true hi p = ocSum rows lo hi p := by
  unfold tsWindowSum ocSum inWindow
  rfl

lemma condSum_eq_middle (pr : Row → Bool) (A B C : PredDF) (p : PredIdx)
    (hA : ∀ r ∈ A, pr r = false) (hB : ∀ r ∈ B, pr r = true)
    (hC : ∀ r ∈ C, pr r = false) :
    condSum pr (A ++ (B ++ C)) p = (B.map (fun r => cnt r p)).sum := by
  unfold condSum
  rw [List.filter_append, List.filter_append]
  rw [List.filter_eq_nil_iff.mpr (fun a ha hc => by rw [hA a ha] at hc; exact Bool.noConfusion hc)]
  rw [List.filter_eq_self.mpr hB]
  rw [List.filter_eq_nil_iff.mpr (fun a ha hc => by rw [hC a ha] at hc; exact Bool.noConfusion hc)]
  simp

lemma rowTs_eq_get {rows : PredDF} {k : Nat} (hk : k < rows.length) :
    rowTs rows k = (rows.get ⟨k, hk⟩).ts := by
  unfold rowTs
  rw [List.getD_eq_getElem _ _ hk]
  rfl

lemma prefCnt_add_ocSum {rows : PredDF}
    (hs : rows.Pairwise (fun r r' => r.ts < r'.ts))
    {i j : Nat} (hij : i ≤ j) (hj : j < rows.length) (p : PredIdx) :
    prefCnt rows (j + 1) p =
      prefCnt rows (i + 1) p +
        ocSum rows (rows.get ⟨i, lt_of_le_of_lt hij hj⟩).ts (rows.get ⟨j, hj⟩).ts p := by
  have hi : i < rows.length := lt_of_le_of_lt hij hj
  have hsget := List.pairwise_iff_getElem.mp hs
  have hmemA : ∀ r ∈ rows.take (i + 1), r.ts ≤ (rows.get ⟨i, hi⟩).ts := by
    intro r hr
    obtain ⟨k, hm, hk⟩ := List.mem_take_iff_getElem.mp hr
    have hk1 : k < i + 1 := lt_of_lt_of_le hm (min_le_left _ _)
    have hkl : k < rows.length := lt_of_lt_of_le hm (min_le_right _ _)
    rcases Nat.lt_or_eq_of_le (Nat.le_of_lt_succ hk1) with hlt | heq
    · have := hsget k i hkl hi hlt
      rw [hk] at this
      simp only [List.get_eq_getElem]
      exact le_of_lt this
    · subst heq
      simp only [List.get_eq_getElem]
      rw [hk]
  have hmemB : ∀ r ∈ (rows.drop (i + 1)).take (j - i),
      (rows.get ⟨i, hi⟩).ts < r.ts ∧ r.ts ≤ (rows.get ⟨j, hj⟩).ts := by
    intro r hr
    obtain ⟨k, hm, hk⟩ := List.mem_take_iff_getElem.mp hr
    have hk1 : k < j - i := lt_of_lt_of_le hm (min_le_left _ _)
    have hkd : k < (rows.drop (i + 1)).length := lt_of_lt_of_le hm (min_le_right _ _)
    have hkl : i + 1 + k < rows.length := by
      rw [List.length_drop] at hkd
      omega
    have hval : rows[i + 1 + k] = r := by
      rw [← hk]
      exact (List.getElem_drop rows).symm
    constructor
    · have := hsget i (i + 1 + k) hi hkl (by omega)
      rw [hval] at this
      simpa only [List.get_eq_getElem] using this
    · rcases Nat.lt_or_eq_of_le (show i + 1 + k ≤ j by omega) with hlt | heq
      · have := hsget (i + 1 + k) j hkl hj hlt
        rw [hval] at this
        simp only [List.get_eq_getElem]
        exact le_of_lt this
      · have hj2 : rows[j] = rows[i + 1 + k] := by
          congr 1
          omega
        simp only [List.get_eq_getElem]
        rw [hj2, hval]
  have hmemC : ∀ r ∈ rows.drop (j + 1), (rows.get ⟨j, hj⟩).ts < r.ts := by
    intro r hr
    obtain ⟨k, hm, hk⟩ := List.mem_drop_iff_getElem.mp hr
    have := hsget j (j + 1 + k) hj (by omega) (by omega)
    rw [hk] at this
    simpa only [List.get_eq_getElem] using this
  have hdrop : rows.drop (j + 1) = (rows.drop (i + 1)).drop (j - i) := by
    rw [List.drop_drop]
    congr 1
    omega
  have h1 : (rows.drop (i + 1)).take (j - i) ++ rows.drop (j + 1) = rows.drop (i + 1) := by
    rw [hdrop, List.take_append_drop]
  have hdecomp : rows =
      rows.take (i + 1) ++ ((rows.drop (i + 1)).take (j - i) ++ rows.drop (j + 1)) := by
    rw [h1, List.take_append_drop]
  have hocsum : ocSum rows (rows.get ⟨i, hi⟩).ts (rows.get ⟨j, hj⟩).ts p =
      (((rows.drop (i + 1)).take (j - i)).map (fun r => cnt r p)).sum := by
    calc ocSum rows (rows.get ⟨i, hi⟩).ts (rows.get ⟨j, hj⟩).ts p
        = condSum
            (fun r => decide ((rows.get ⟨i, hi⟩).ts < r.ts) &&
              decide (r.ts ≤ (rows.get ⟨j, hj⟩).ts))
            (rows.take (i + 1) ++ ((rows.drop (i + 1)).take (j - i) ++ rows.drop (j + 1)))
            p := by
          exact congrArg
            (fun l => condSum (fun r => decide ((rows.get ⟨i, hi⟩).ts < r.ts) &&
              decide (r.ts ≤ (rows.get ⟨j, hj⟩).ts)) l p) hdecomp
      _ = (((rows.drop (i + 1)).take (j - i)).map (fun r => cnt r p)).sum := by
          refine condSum_eq_middle _ _ _ _ _ (fun r hr => ?_) (fun r hr => ?_)
            (fun r hr => ?_)
          · have := hmemA r hr
            rw [Bool.eq_false_iff]
            simp only [ne_eq, Bool.and_eq_true, decide_eq_true_eq, not_and]
            omega
          · obtain ⟨hb1, hb2⟩ := hmemB r hr
            simp only [Bool.and_eq_true, decide_eq_true_eq]
            exact ⟨hb1, hb2⟩
          · have := hmemC r hr
            rw [Bool.eq_false_iff]
            simp only [ne_eq, Bool.and_eq_true, decide_eq_true_eq, not_and]
            omega
  have htake : rows.take (j + 1) = rows.take (i + 1) ++ (rows.drop (i + 1)).take (j - i) := by
    have hj1 : j + 1 = (i + 1) + (j - i) := by omega
    rw [hj1, List.take_add]
  unfold prefCnt
  rw [htake, List.map_append, List.sum_append, hocsum]

lemma eligRowNext_ts {b : PredIdx} {li : Bool} {root : Int} {r : Row}
    (h : eligRowNext b li root r = true) : root ≤ r.ts := by
  unfold eligRowNext at h
  obtain ⟨-, h2⟩ := Bool.and_eq_true_iff.mp h
  cases li with
  | false => exact le_of_lt (of_decide_eq_true h2)
  | true => exact of_decide_eq_true h2

lemma eligRowNext_ts_strict {b : PredIdx} {root : Int} {r : Row}
    (h : eligRowNext b false root r = true) : root < r.ts := by
  unfold eligRowNext at h
  obtain ⟨-, h2⟩ := Bool.and_eq_true_iff.mp h
  exact of_decide_eq_true h2

lemma eligRowPrev_ts {b : PredIdx} {ri : Bool} {root : Int} {r : Row}
    (h : eligRowPrev b ri root r = true) : r.ts ≤ root := by
  unfold eligRowPrev at h
  obtain ⟨-, h2⟩ := Bool.and_eq_true_iff.mp h
  cases ri with
  | false => exact le_of_lt (of_decide_eq_true h2)
  | true => exact of_decide_eq_true h2

lemma eligRowPrev_ts_strict {b : PredIdx} {root : Int} {r : Row}
    (h : eligRowPrev b false root r = true) : r.ts < root := by
  unfold eligRowPrev at h
  obtain ⟨-, h2⟩ := Bool.and_eq_true_iff.mp h
  exact of_decide_eq_true h2

lemma prefCnt_add_ocSum_rowTs {rows : PredDF}
    (hs : rows.Pairwise (fun r r' => r.ts < r'.ts))
    {i j : Nat} (hij : i ≤ j) (hj : j < rows.length) (p : PredIdx) :
    prefCnt rows (j + 1) p =
      prefCnt rows (i + 1) p + ocSum rows (rowTs rows i) (rowTs rows j) p := by
  have h := prefCnt_add_ocSum hs hij hj p
  rwa [← rowTs_eq_get (lt_of_le_of_lt hij hj), ← rowTs_eq_get hj] at h

lemma rowTs_lt_of_lt {rows : PredDF}
    (hs : rows.Pairwise (fun r r' => r.ts < r'.ts))
    {i j : Nat} (hij : i < j) (hj : j < rows.length) :
    rowTs rows i < rowTs rows j := by
  have hi : i < rows.length := lt_trans hij hj
  rw [rowTs_eq_get hi, rowTs_eq_get hj]
  simp only [List.get_eq_getElem]
  exact List.pairwise_iff_getElem.mp hs i j hi hj hij

lemma evBoundSum_next_eq (rows : PredDF) (a : Nat) (li ri : Bool) (off : Int)
    (b p : PredIdx)
    (hs : rows.Pairwise (fun r r' => r.ts < r'.ts))
    (ha : a < rows.length) (hoff : 0 ≤ off) :
    evBoundSum .next rows a li ri off b p =
      (evBoundSpec .next rows a li ri off b p).map (Nat.cast : Nat → Int) := by
  cases hfind : findIdxFirst (eligRowNext b li (rowTs rows a + off)) rows with
  | none => simp [evBoundSum, evBoundSpec, hfind]
  | some j =>
      obtain ⟨hj, helig, -⟩ := findIdxFirst_spec _ _ _ hfind
      have hLHS : evBoundSum .next rows a li ri off b p =
          some ((prefCnt rows (j + 1) p : Int) - (prefCnt rows (a + 1) p : Int)
            - (ocSum rows (rowTs rows a) (rowTs rows a + off) p : Int)
            + (if li then (atSum rows (rowTs rows a + off) p : Int) else 0)
            - (if ri then 0 else (atSum rows (rowTs rows j) p : Int))) := by
        simp only [evBoundSum]
        rw [hfind]
      have hRHS : evBoundSpec .next rows a li ri off b p =
          some (tsWindowSum rows li (rowTs rows a + off) ri (rowTs rows j) p) := by
        simp only [evBoundSpec]
        rw [hfind]
        rfl
      rw [hLHS, hRHS, Option.map_some']
      simp only [Option.some.injEq]
      have hts_j : (rows.get ⟨j, hj⟩).ts = rowTs rows j := (rowTs_eq_get hj).symm
      have hroot_le : rowTs rows a + off ≤ rowTs rows j := by
        have := eligRowNext_ts helig
        rwa [hts_j] at this
      have haj : a ≤ j := by
        by_contra hc
        push_neg at hc
        have hlt := rowTs_lt_of_lt hs hc ha
        omega
      have hpref := prefCnt_add_ocSum_rowTs hs haj hj p
      have hsplit := ocSum_interval_split rows (rowTs rows a) (rowTs rows a + off)
        (rowTs rows j) p (by omega) hroot_le
      cases li with
      | true =>
          cases ri with
          | true =>
              have hcc := tsWindowSum_cc rows (rowTs rows a + off) (rowTs rows j) p hroot_le
              simp only [if_true]
              omega
          | false =>
              have hcc := tsWindowSum_cc rows (rowTs rows a + off) (rowTs rows j) p hroot_le
              have hre := tsWindowSum_right_excl rows true (rowTs rows a + off)
                (rowTs rows j) p (by simp [hroot_le])
              simp only [if_true, if_false, Bool.false_eq_true]
              omega
      | false =>
          have hstrict : rowTs rows a + off < rowTs rows j := by
            have := eligRowNext_ts_strict helig
            rwa [hts_j] at this
          cases ri with
          | true =>
              have hoc := tsWindowSum_oc rows (rowTs rows a + off) (rowTs rows j) p
              simp only [if_true, if_false, Bool.false_eq_true]
              omega
          | false =>
              have hoc := tsWindowSum_oc rows (rowTs rows a + off) (rowTs rows j) p
              have hre := tsWindowSum_right_excl rows false (rowTs rows a + off)
                (rowTs rows j) p (by simp [hstrict])
              simp only [if_true, if_false, Bool.false_eq_true]
              omega

lemma evBoundSum_prev_eq (rows : PredDF) (a : Nat) (li ri : Bool) (off : Int)
    (b p : PredIdx)
    (hs : rows.Pairwise (fun r r' => r.ts < r'.ts))
    (ha : a < rows.length) (hoff : off ≤ 0) :
    evBoundSum .prev rows a li ri off b p =
      (evBoundSpec .prev rows a li ri off b p).map (Nat.cast : Nat → Int) := by
  cases hfind : findIdxLast (eligRowPrev b ri (rowTs rows a + off)) rows with
  | none => simp [evBoundSum, evBoundSpec, hfind]
  | some j =>
      obtain ⟨hj, helig, -⟩ := findIdxLast_spec _ _ _ hfind
      have hLHS : evBoundSum .prev rows a li ri off b p =
          some ((prefCnt rows (a + 1) p : Int) - (prefCnt rows (j + 1) p : Int)
            - (ocSum rows (rowTs rows a + off) (rowTs rows a) p : Int)
            + (if li then (atSum rows (rowTs rows j) p : Int) else 0)
            - (if ri then 0 else (atSum rows (rowTs rows a + off) p : Int))) := by
        simp only [evBoundSum]
        rw [hfind]
      have hRHS : evBoundSpec .prev rows a li ri off b p =
          some (tsWindowSum rows li (rowTs rows j) ri (rowTs rows a + off) p) := by
        simp only [evBoundSpec]
        rw [hfind]
        rfl
      rw [hLHS, hRHS, Option.map_some']
      simp only [Option.some.injEq]
      have hts_j : (rows.get ⟨j, hj⟩).ts = rowTs rows j := (rowTs_eq_get hj).symm
      have hroot_ge : rowTs rows j ≤ rowTs rows a + off := by
        have := eligRowPrev_ts helig
        rwa [hts_j] at this
      have hja : j ≤ a := by
        by_contra hc
        push_neg at hc
        have hlt := rowTs_lt_of_lt hs hc hj
        omega
      have hpref := prefCnt_add_ocSum_rowTs hs hja ha p
      have hsplit := ocSum_interval_split rows (rowTs rows j) (rowTs rows a + off)
        (rowTs rows a) p hroot_ge (by omega)
      cases li with
      | true =>
          cases ri with
          | true =>
              have hcc := tsWindowSum_cc rows (rowTs rows j) (rowTs rows a + off) p hroot_ge
              simp only [if_true]
              omega
          | false =>
              have hstrict : rowTs rows j < rowTs rows a + off := by
                have := eligRowPrev_ts_strict helig
                rwa [hts_j] at this
              have hcc := tsWindowSum_cc rows (rowTs rows j) (rowTs rows a + off) p hroot_ge
              have hre := tsWindowSum_right_excl rows true (rowTs rows j)
                (rowTs rows a + off) p (by simp [hroot_ge])
              simp only [if_true, if_false, Bool.false_eq_true]
              omega
      | false =>
          cases ri with
          | true =>
              have hoc := tsWindowSum_oc rows (rowTs rows j) (rowTs rows a + off) p
              simp only [if_true, if_false, Bool.false_eq_true]
              omega
          | false =>
              have hstrict : rowTs rows j < rowTs rows a + off := by
                have := eligRowPrev_ts_strict helig
                rwa [hts_j] at this
              have hoc := tsWindowSum_oc rows (rowTs rows j) (rowTs rows a + off) p
              have hre := tsWindowSum_right_excl rows false (rowTs rows j)
                (rowTs rows a + off) p (by simp [hstrict])
              simp only [if_true, if_false, Bool.false_eq_true]
              omega

/-- C3: the event-bound aggregation computed by cumulative-sum differencing —
`cumsum[child] − cumsum[anchor]`, minus the counts accumulated inside the
offset stub — equals, for each anchor row and every predicate column, the
direct sum of that predicate's counts over the interval from `anchor + off` to
the first subsequent (resp. last preceding, for the backward direction) row
whose boundary predicate is positive, under the declared endpoint
inclusivities. -/
theorem boolean_expr_bound_sum_eq_direct (dir : EvDir) (rows : PredDF) (a : Nat)
    (li ri : Bool) (off : Int) (b p : PredIdx)
    (hs : rows.Pairwise (fun r r' => r.ts < r'.ts))
    (ha : a < rows.length)
    (hoff : match dir with | .next => 0 ≤ off | .prev => off ≤ 0) :
    evBoundSum dir rows a li ri off b p =
      (evBoundSpec dir rows a li ri off b p).map (Nat.cast : Nat → Int) := by
  cases dir with
  | next => exact evBoundSum_next_eq rows a li ri off b p hs ha hoff
  | prev => exact evBoundSum_prev_eq rows a li ri off b p hs ha hoff

theorem boolean_expr_bound_sum_eq_direct_witness :
    ([(⟨1, 0, [1, 2]⟩ : Row), ⟨1, 5, [1, 3]⟩, ⟨1, 9, [1, 1]⟩].Pairwise
        (fun r r' => r.ts < r'.ts) ∧ 0 < 3 ∧ (0 : Int) ≤ 0) ∧
    evBoundSum .next [⟨1, 0, [1, 2]⟩, ⟨1, 5, [1, 3]⟩, ⟨1, 9, [1, 1]⟩] 0 false true 0 0 1 =
      (evBoundSpec .next [⟨1, 0, [1, 2]⟩, ⟨1, 5, [1, 3]⟩, ⟨1, 9, [1, 1]⟩] 0 false true 0 0 1).map
        (Nat.cast : Nat → Int) :=
  ⟨⟨by decide, by decide, by decide⟩,
   boolean_expr_bound_sum_eq_direct .next
     [⟨1, 0, [1, 2]⟩, ⟨1, 5, [1, 3]⟩, ⟨1, 9, [1, 1]⟩] 0 false true 0 0 1
     (by decide) (by decide) (by decide)⟩
